import Mathlib

/-!
# Verification of the Gravity-SPHINCS hypertree core (`src/gravity.rs`)

Shallow embedding of the hypertree composition layer of a stateless
hash-based signature scheme. The core under verification is
`src/gravity.rs`; its collaborators (hash primitive, PRNG, PORS few-time
scheme, one-time subtree scheme, generic Merkle tree, configuration
constants) are not part of the sources, so they are modelled from the
design document's collaborator contracts (section 6 of the design),
each marked `Modelled from the spec:`.
-/

namespace Gravity

/-- Modelled from the spec: configuration constant `GRAVITY_C` (missing
`config.rs`). The spec fixes only that the constants are positive and that
`GRAVITY_CCC = 2^GRAVITY_C`, `MERKLE_HHH = 2^MERKLE_H`; a small
representative parameter set is chosen. -/
def GRAVITY_C : Nat := 2

/-- Modelled from the spec: `GRAVITY_CCC = 2^GRAVITY_C` (missing `config.rs`). -/
def GRAVITY_CCC : Nat := 4

/-- Modelled from the spec: number of hypertree layers `GRAVITY_D` (missing `config.rs`). -/
def GRAVITY_D : Nat := 2

/-- Modelled from the spec: subtree height `MERKLE_H` (missing `config.rs`). -/
def MERKLE_H : Nat := 2

/-- Modelled from the spec: `MERKLE_HHH = 2^MERKLE_H` (missing `config.rs`). -/
def MERKLE_HHH : Nat := 4

/-- Modelled from the spec: the fixed digest width in bytes (spec section 3:
"fixed-size digest (32 bytes)"). -/
def HASH_SIZE : Nat := 32

/-- Modelled from the spec: `Hash` — fixed-size digest, equality-comparable,
serializable as raw bytes (missing `hash.rs`). Bytes are naturals `< 256`;
the length-32 well-formedness is tracked by `Hash.wf`. -/
structure Hash where
  h : List Nat
deriving DecidableEq, Repr

instance : Inhabited Hash := ⟨⟨List.replicate HASH_SIZE 0⟩⟩

/-- A well-formed digest holds exactly `HASH_SIZE` bytes. -/
def Hash.wf (x : Hash) : Prop := x.h.length = HASH_SIZE

instance (x : Hash) : Decidable x.wf := by unfold Hash.wf; infer_instance

/-- Modelled from the spec: a concrete stand-in compression for the missing
hash primitive — fold the input bytes into one accumulator. -/
def foldBytes (xs : List Nat) : Nat :=
  xs.foldl (fun acc b => (acc * 131 + b + 1) % 1000003) 7

/-- Modelled from the spec: expand an accumulator back into 32 bytes. -/
def expandBytes (n : Nat) : List Nat :=
  (List.range HASH_SIZE).map (fun i => (n * (2 * i + 1) + i) % 256)

/-- Modelled from the spec: the missing hash primitive `hash_n_to_n`-style
digest of an arbitrary byte string into a 32-byte `Hash`. -/
def modelHash (xs : List Nat) : Hash := ⟨expandBytes (foldBytes xs)⟩

/-- Modelled from the spec: the missing two-to-one node compression used by
the Merkle authentication tree. -/
def hash2 (a b : Hash) : Hash := modelHash (a.h ++ b.h)

/-- Modelled from the spec: `long_hash(bytes) -> Hash`, the long-input hash
used to digest a raw message before signing/verifying (missing `hash.rs`). -/
def long_hash (msg : List Nat) : Hash := modelHash msg

/-- Little-endian fixed-width byte encoding of a natural (used by the
modelled serializers for the address components). -/
def toLE : Nat → Nat → List Nat
  | 0, _ => []
  | k + 1, n => n % 256 :: toLE k (n / 256)

/-- Little-endian byte decoding. -/
def fromLE : List Nat → Nat
  | [] => 0
  | b :: bs => b + 256 * fromLE bs

/-- Modelled from the spec: `Address` — tuple (layer: u32, instance: u64)
for hypertree domain separation (missing `address.rs`). -/
structure Address where
  layer : Nat
  inst : Nat
deriving DecidableEq, Repr

instance : Inhabited Address := ⟨⟨0, 0⟩⟩

/-- Modelled from the spec: `Address::new(layer, instance)`. -/
def Address.new (layer inst : Nat) : Address := ⟨layer, inst⟩

/-- Modelled from the spec: `next_layer()` advances the address to the
adjacent layer, keeping the instance. The sources fix the direction: key
generation caches the top subtrees at layer `0` (`gravity.rs` line 35) and
the signing loop must end on that same layer, so layers decrease from the
few-time scheme's starting layer `GRAVITY_D` toward `0`. -/
def Address.next_layer (a : Address) : Address := { a with layer := a.layer - 1 }

/-- Modelled from the spec: `shift(delta)` repositions the instance at the
next layer's corresponding leaf — one layer up, `2^delta` bottom positions
collapse into one, i.e. the instance is divided by `2^delta`. -/
def Address.shift (a : Address) (delta : Nat) : Address :=
  { a with inst := a.inst / 2 ^ delta }

/-- Modelled from the spec: `get_instance()` reads the current instance. -/
def Address.get_instance (a : Address) : Nat := a.inst

/-- Modelled from the spec: the deterministic PRNG, keyed by the secret
seed; derivations are a pure function of seed and address (missing
`prng.rs`, spec sections 6 and 9). -/
structure Prng where
  seed : Hash
deriving DecidableEq, Repr

/-- Modelled from the spec: `Prng::new(seed)`. -/
def Prng.new (seed : Hash) : Prng := ⟨seed⟩

/-! ## Modelled one-time subtree scheme (missing `subtree.rs`)

Contract (spec section 6): `SecKey::new(prng) -> SubtreeKeyGen`;
`genpk(address) -> PubKey{h}`; `sign(address, msg) -> (Hash, Signature)`;
`Signature::extract(address, msg) -> Hash`; fixed-width serialization.
A subtree covers `MERKLE_HHH` adjacent instances, so its identity — and
hence its root — depends on the address only through the layer and the
instance divided by `MERKLE_HHH`. -/

/-- Modelled from the spec: byte tag identifying the subtree an address
points into (layer, instance-div-`MERKLE_HHH`): the domain-separation
coordinate of one one-time subtree. -/
def addrTag (a : Address) : List Nat :=
  toLE 4 a.layer ++ toLE 8 (a.inst / MERKLE_HHH)

/-- Modelled from the spec: the subtree key generator, seeded once from the
PRNG and reused across addresses. -/
structure SubSecKey where
  prng : Prng
deriving DecidableEq, Repr

/-- Modelled from the spec: `subtree::SecKey::new(&prng)`. -/
def SubSecKey.new (p : Prng) : SubSecKey := ⟨p⟩

/-- Modelled from the spec: the per-address one-time secret material,
derived purely from seed and address; 32 bytes, each `< 256`. -/
def subSecret (sk : SubSecKey) (a : Address) : List Nat :=
  (modelHash (sk.prng.seed.h ++ 0 :: addrTag a)).h

/-- Modelled from the spec: the subtree public key root for an address,
a hash of the per-address secret material in its address context. -/
def subRootFromSecret (s : List Nat) (a : Address) : Hash :=
  modelHash (s ++ 1 :: addrTag a)

/-- Modelled from the spec: one-time subtree public key. -/
structure SubPubKey where
  h : Hash
deriving DecidableEq, Repr

/-- Modelled from the spec: `SubtreeKeyGen::genpk(address)`. -/
def SubSecKey.genpk (sk : SubSecKey) (a : Address) : SubPubKey :=
  ⟨subRootFromSecret (subSecret sk a) a⟩

/-- Bytewise modular blinding of the secret material with the signed
message — the modelled stand-in for the hash-chain advance. -/
def mixBytes (s m : List Nat) : List Nat :=
  (s.zip m).map (fun p => (p.1 + p.2) % 256)

/-- Inverse of `mixBytes` given the same message, used by extraction. -/
def unmixBytes (x m : List Nat) : List Nat :=
  (x.zip m).map (fun p => (p.1 + (256 - p.2 % 256)) % 256)

/-- Modelled from the spec: a one-time subtree signature — fixed-width
(32 bytes), message- and address-dependent. -/
structure SubSignature where
  s : List Nat
deriving DecidableEq, Repr

instance : Inhabited SubSignature := ⟨⟨List.replicate HASH_SIZE 0⟩⟩

/-- Modelled from the spec: `SubtreeKeyGen::sign(address, msg) ->
(new_root, signature)`: the root is the subtree public key at this
address, the signature blinds the per-address secret with the message. -/
def SubSecKey.sign (sk : SubSecKey) (a : Address) (msg : Hash) :
    Hash × SubSignature :=
  (subRootFromSecret (subSecret sk a) a, ⟨mixBytes (subSecret sk a) msg.h⟩)

/-- Modelled from the spec: `subtree::Signature::extract(address, msg)`
recomputes the candidate subtree root from signature, address and message. -/
def SubSignature.extract (t : SubSignature) (a : Address) (msg : Hash) : Hash :=
  subRootFromSecret (unmixBytes t.s msg.h) a

/-- A well-formed subtree signature holds exactly 32 bytes. -/
def SubSignature.wf (t : SubSignature) : Prop := t.s.length = HASH_SIZE

instance (t : SubSignature) : Decidable t.wf := by
  unfold SubSignature.wf; infer_instance

/-! ## Modelled few-time PORS scheme (missing `pors.rs`)

Contract (spec section 6): `sign(prng, salt, msg) -> (Address, Hash,
Signature)`; `Signature::extract(msg) -> Option (Address, Hash)`;
fixed-width serialization. The starting address sits at hypertree layer
`GRAVITY_D` with an instance below `GRAVITY_CCC * MERKLE_HHH^GRAVITY_D`
(one per bottom-level few-time slot), derived from salt and message;
extraction fails on a message that does not match the signature. -/

/-- Modelled from the spec: the PORS few-time signature value. It fixes
the starting address, the intermediate hash and the message it signs;
extraction recovers the first two and rejects any other message. -/
structure PorsSignature where
  addr : Address
  h : Hash
  msgTag : Hash
deriving DecidableEq, Repr

instance : Inhabited PorsSignature := ⟨⟨default, default, default⟩⟩

namespace PorsSignature

/-- Well-formedness: address components within u32/u64 range, 32-byte
hash fields. -/
def wf (p : PorsSignature) : Prop :=
  p.addr.layer < 2 ^ 32 ∧ p.addr.inst < 2 ^ 64 ∧ p.h.wf ∧ p.msgTag.wf

instance (p : PorsSignature) : Decidable p.wf := by
  unfold wf; infer_instance

end PorsSignature

/-- Modelled from the spec: the bottom-level instance index selected by
salt and message. -/
def porsInstance (salt msg : Hash) : Nat :=
  foldBytes (salt.h ++ msg.h) % (GRAVITY_CCC * MERKLE_HHH ^ GRAVITY_D)

/-- Modelled from the spec: `pors::sign(prng, salt, msg)` returning the
starting address (layer `GRAVITY_D`), the intermediate hash and the
few-time signature value. -/
def porsSign (p : Prng) (salt msg : Hash) :
    Address × Hash × PorsSignature :=
  let a := Address.new GRAVITY_D (porsInstance salt msg)
  let h := modelHash (p.seed.h ++ 2 :: salt.h ++ msg.h)
  (a, h, ⟨a, h, msg⟩)

/-- Modelled from the spec: `pors::Signature::extract(msg)` — `None` when
the message does not match, otherwise the starting address and the
intermediate hash. -/
def PorsSignature.extract (p : PorsSignature) (msg : Hash) :
    Option (Address × Hash) :=
  if p.msgTag = msg then some (p.addr, p.h) else none

/-! ## Modelled Merkle authentication tree (missing `merkle.rs`)

Contract (spec section 6): `new(height)`; `leaves()` (mutable, length
`2^height`); `generate()` (compress leaves to root, once, after the leaves
are populated); `root()`; `gen_auth(out, leaf_index)`; and the free
function `merkle_compress_auth` used during verification. -/

/-- Modelled from the spec: one compression level — combine adjacent leaf
pairs with the two-to-one hash. -/
def levelUp : List Hash → List Hash
  | [] => []
  | [_] => []
  | a :: b :: rest => hash2 a b :: levelUp rest

/-- Modelled from the spec: the root of a tree of the given height over a
leaf level, by repeated pairwise compression. -/
def rootFromLeaves : Nat → List Hash → Hash
  | 0, l => l.headD default
  | n + 1, l => rootFromLeaves n (levelUp l)

/-- Modelled from the spec: `gen_auth` — the authentication path of a leaf:
at every level the sibling of the running index, bottom-to-top. -/
def genAuth : Nat → List Hash → Nat → List Hash
  | 0, _, _ => []
  | n + 1, lvl, idx =>
    (lvl.getD (if idx % 2 = 0 then idx + 1 else idx - 1) default) ::
      genAuth n (levelUp lvl) (idx / 2)

/-- Modelled from the spec: `merkle_compress_auth(h, auth, height, index)`
— recompute a candidate root from a leaf value, its authentication path
and its index, choosing the left/right order at each level by the
corresponding bit of the index. -/
def merkle_compress_auth : Hash → List Hash → Nat → Nat → Hash
  | h, _, 0, _ => h
  | h, [], _ + 1, _ => h
  | h, p :: rest, n + 1, idx =>
    merkle_compress_auth (if idx % 2 = 0 then hash2 h p else hash2 p h)
      rest n (idx / 2)

/-- Modelled from the spec: the Merkle authentication tree. `rootCache`
holds the compressed root once `generate` has run (the two-phase
populate-then-compress discipline of spec section 3). -/
structure MerkleTree where
  height : Nat
  leaves : List Hash
  rootCache : Hash
deriving DecidableEq, Repr

namespace MerkleTree

/-- Modelled from the spec: `MerkleTree::new(height)` — `2^height` blank
leaves, nothing compressed yet. -/
def new (height : Nat) : MerkleTree :=
  ⟨height, List.replicate (2 ^ height) default, default⟩

/-- Modelled from the spec: writing one leaf of the tree
(`leaves[i] = v`). -/
def setLeaf (t : MerkleTree) (i : Nat) (v : Hash) : MerkleTree :=
  { t with leaves := t.leaves.set i v }

/-- Modelled from the spec: `generate()` — compress the populated leaves
into the cached root. -/
def generate (t : MerkleTree) : MerkleTree :=
  { t with rootCache := rootFromLeaves t.height t.leaves }

/-- Modelled from the spec: `root()` — a pure read of the cached root. -/
def root (t : MerkleTree) : Hash := t.rootCache

/-- Modelled from the spec: `gen_auth(out, index)` — produce the
authentication path of the given leaf. -/
def gen_auth (t : MerkleTree) (index : Nat) : List Hash :=
  genAuth t.height t.leaves index

end MerkleTree

/-! ## Modelled fixed-width component serializers (missing collaborator
code; spec sections 4.4 and 6: each sub-component owns its fixed-width
encoding). Serializers append to a growing buffer; deserializers consume
a byte stream one item at a time, so on early exhaustion the remaining
stream has been drained. -/

/-- Modelled from the spec: `Hash::serialize` — append the raw 32 bytes. -/
def Hash.serialize (x : Hash) (output : List Nat) : List Nat := output ++ x.h

/-- Modelled from the spec: `Hash::deserialize` — read exactly 32 bytes,
one at a time; `None` on exhaustion. -/
def Hash.deserialize (it : List Nat) : Option Hash × List Nat :=
  if HASH_SIZE ≤ it.length then (some ⟨it.take HASH_SIZE⟩, it.drop HASH_SIZE)
  else (none, [])

/-- Modelled from the spec: read a `k`-byte little-endian natural from the
stream. -/
def readLE (k : Nat) (it : List Nat) : Option Nat × List Nat :=
  if k ≤ it.length then (some (fromLE (it.take k)), it.drop k) else (none, [])

/-- Modelled from the spec: `subtree::Signature::serialize` — fixed width,
the raw 32 signature bytes. -/
def SubSignature.serialize (t : SubSignature) (output : List Nat) : List Nat :=
  output ++ t.s

/-- Modelled from the spec: `subtree::Signature::deserialize`. -/
def SubSignature.deserialize (it : List Nat) : Option SubSignature × List Nat :=
  if HASH_SIZE ≤ it.length then (some ⟨it.take HASH_SIZE⟩, it.drop HASH_SIZE)
  else (none, [])

/-- Modelled from the spec: `pors::Signature::serialize` — fixed order and
width: address layer (4 bytes LE), address instance (8 bytes LE), the
intermediate hash, the message tag. -/
def PorsSignature.serialize (p : PorsSignature) (output : List Nat) : List Nat :=
  p.msgTag.serialize (p.h.serialize
    (output ++ toLE 4 p.addr.layer ++ toLE 8 p.addr.inst))

/-- Modelled from the spec: `pors::Signature::deserialize` — same fields,
same order; `None` the instant a sub-read fails. -/
def PorsSignature.deserialize (it : List Nat) : Option PorsSignature × List Nat :=
  match readLE 4 it with
  | (none, r) => (none, r)
  | (some layer, r1) =>
    match readLE 8 r1 with
    | (none, r) => (none, r)
    | (some inst, r2) =>
      match Hash.deserialize r2 with
      | (none, r) => (none, r)
      | (some h, r3) =>
        match Hash.deserialize r3 with
        | (none, r) => (none, r)
        | (some tag, r4) => (some ⟨⟨layer, inst⟩, h, tag⟩, r4)

/-- Run a component deserializer a fixed number of times, propagating the
first failure (the loop `for i in 0..n { out[i] = rd(it)? }`). -/
def readN {α : Type} (rd : List Nat → Option α × List Nat) :
    Nat → List Nat → Option (List α) × List Nat
  | 0, it => (some [], it)
  | n + 1, it =>
    match rd it with
    | (none, r) => (none, r)
    | (some a, r) =>
      match readN rd n r with
      | (none, r2) => (none, r2)
      | (some as, r2) => (some (a :: as), r2)

/-! ## The hypertree core, translated from `src/gravity.rs` -/

/-- `SecKey` (`gravity.rs` lines 10-14): seed, salt, and the cached top
authentication tree. -/
structure SecKey where
  seed : Hash
  salt : Hash
  cache : MerkleTree
deriving DecidableEq, Repr

/-- `PubKey` (`gravity.rs` lines 15-17). -/
structure PubKey where
  h : Hash
deriving DecidableEq, Repr

/-- `Signature` (`gravity.rs` lines 18-23): the PORS value, `GRAVITY_D`
subtree signatures, `GRAVITY_C` authentication-path hashes. -/
structure Signature where
  pors_sign : PorsSignature
  subtrees : List SubSignature
  auth_c : List Hash
deriving DecidableEq, Repr

/-- `Default` for `Signature` (`gravity.rs` line 18): default components,
arrays of their fixed lengths. -/
instance : Inhabited Signature :=
  ⟨⟨default, List.replicate GRAVITY_D default, List.replicate GRAVITY_C default⟩⟩

/-- The subtree key generator derived during key generation
(`gravity.rs` lines 37-38): `subtree::SecKey::new(&prng::Prng::new(&seed))`. -/
def keygenSubtreeKey (seed : Hash) : SubSecKey := SubSecKey.new (Prng.new seed)

/-- `SecKey::new(random)` (`gravity.rs` lines 26-48): split the 64 bytes
into seed and salt, populate leaf `i` of the `GRAVITY_CCC`-leaf cache with
the subtree public-key hash at `Address(0, MERKLE_HHH * i)` for every
`i`, then compress the tree. -/
def SecKey.new (random : List Nat) : SecKey :=
  let seed : Hash := ⟨random.take 32⟩
  let salt : Hash := ⟨(random.drop 32).take 32⟩
  let subtree_sk := keygenSubtreeKey seed
  let cache :=
    (List.range GRAVITY_CCC).foldl
      (fun t i => t.setLeaf i (subtree_sk.genpk (Address.new 0 (MERKLE_HHH * i))).h)
      (MerkleTree.new GRAVITY_C)
  { seed := seed, salt := salt, cache := cache.generate }

/-- `SecKey::genpk` (`gravity.rs` lines 50-52): the cached root, read
without recomputation. -/
def SecKey.genpk (sk : SecKey) : PubKey := ⟨sk.cache.root⟩

/-- The subtree key generator derived at signing time
(`gravity.rs` lines 57-61). -/
def signSubtreeKey (sk : SecKey) : SubSecKey := SubSecKey.new (Prng.new sk.seed)

/-- One iteration of the signing loop (`gravity.rs` lines 62-68):
advance to the next layer, sign the running hash there, record the
subtree signature, adopt the new root, shift the instance by `MERKLE_H`. -/
def signStep (ssk : SubSecKey) (st : Address × Hash × List SubSignature)
    (_i : Nat) : Address × Hash × List SubSignature :=
  let a := st.1.next_layer
  let rs := ssk.sign a st.2.1
  (a.shift MERKLE_H, rs.1, st.2.2 ++ [rs.2])

/-- The `GRAVITY_D`-iteration signing loop (`gravity.rs` lines 62-68). -/
def signLayers (ssk : SubSecKey) (a0 : Address) (h0 : Hash) :
    Address × Hash × List SubSignature :=
  (List.range GRAVITY_D).foldl (signStep ssk) (a0, h0, [])

/-- `SecKey::sign_hash` (`gravity.rs` lines 54-74). -/
def SecKey.sign_hash (sk : SecKey) (msg : Hash) : Signature :=
  let prng := Prng.new sk.seed
  let start := porsSign prng sk.salt msg
  let ssk := signSubtreeKey sk
  let fin := signLayers ssk start.1 start.2.1
  { pors_sign := start.2.2,
    subtrees := fin.2.2,
    auth_c := sk.cache.gen_auth fin.1.get_instance }

/-- `SecKey::sign_bytes` (`gravity.rs` lines 76-79). -/
def SecKey.sign_bytes (sk : SecKey) (msg : List Nat) : Signature :=
  sk.sign_hash (long_hash msg)

/-- One iteration of the verification loop (`gravity.rs` lines 100-104). -/
def extractStep (subs : List SubSignature) (st : Address × Hash)
    (i : Nat) : Address × Hash :=
  let a := st.1.next_layer
  (a.shift MERKLE_H, (subs.getD i default).extract a st.2)

/-- `Signature::extract_hash` (`gravity.rs` lines 98-112). -/
def Signature.extract_hash (s : Signature) (msg : Hash) : Option Hash :=
  match s.pors_sign.extract msg with
  | none => none
  | some ah =>
    let fin := (List.range GRAVITY_D).foldl (extractStep s.subtrees) ah
    some (merkle_compress_auth fin.2 s.auth_c GRAVITY_C fin.1.get_instance)

/-- `PubKey::verify_hash` (`gravity.rs` lines 83-89). -/
def PubKey.verify_hash (pk : PubKey) (s : Signature) (msg : Hash) : Bool :=
  match s.extract_hash msg with
  | some h => decide (pk.h = h)
  | none => false

/-- `PubKey::verify_bytes` (`gravity.rs` lines 91-94). -/
def PubKey.verify_bytes (pk : PubKey) (s : Signature) (msg : List Nat) : Bool :=
  pk.verify_hash s (long_hash msg)

/-- `Signature::serialize` (`gravity.rs` lines 114-122): PORS value, then
every subtree signature in layer order, then every path hash in order. -/
def Signature.serialize (s : Signature) (output : List Nat) : List Nat :=
  let o1 := s.pors_sign.serialize output
  let o2 := s.subtrees.foldl (fun o t => t.serialize o) o1
  s.auth_c.foldl (fun o x => x.serialize o) o2

/-- `Signature::deserialize` (`gravity.rs` lines 124-137): same fields,
same order, first failure propagated. -/
def Signature.deserialize (it : List Nat) : Option Signature × List Nat :=
  match PorsSignature.deserialize it with
  | (none, r) => (none, r)
  | (some p, r1) =>
    match readN SubSignature.deserialize GRAVITY_D r1 with
    | (none, r2) => (none, r2)
    | (some subs, r2) =>
      match readN Hash.deserialize GRAVITY_C r2 with
      | (none, r3) => (none, r3)
      | (some auths, r3) => (some ⟨p, subs, auths⟩, r3)

/-- Well-formedness of a `Signature`: what the Rust types
`[subtree::Signature; GRAVITY_D]`, `[Hash; GRAVITY_C]` and fixed-size
component fields enforce by construction. -/
def Signature.wf (s : Signature) : Prop :=
  s.pors_sign.wf ∧
  s.subtrees.length = GRAVITY_D ∧ (∀ t ∈ s.subtrees, t.wf) ∧
  s.auth_c.length = GRAVITY_C ∧ (∀ x ∈ s.auth_c, x.wf)

instance (s : Signature) : Decidable s.wf := by
  unfold Signature.wf; infer_instance

/-! ## Byte- and model-level lemmas -/

theorem expandBytes_length (n : Nat) : (expandBytes n).length = HASH_SIZE := by
  simp [expandBytes]

theorem expandBytes_lt (n : Nat) : ∀ b ∈ expandBytes n, b < 256 := by
  intro b hb
  simp only [expandBytes, List.mem_map, List.mem_range] at hb
  obtain ⟨i, _, rfl⟩ := hb
  exact Nat.mod_lt _ (by norm_num)

theorem modelHash_length (xs : List Nat) : (modelHash xs).h.length = HASH_SIZE :=
  expandBytes_length _

theorem modelHash_wf (xs : List Nat) : (modelHash xs).wf := modelHash_length xs

theorem modelHash_lt (xs : List Nat) : ∀ b ∈ (modelHash xs).h, b < 256 :=
  expandBytes_lt _

/-- Blinding with a message and unblinding with the same message is the
identity on in-range byte strings of matching length. -/
theorem unmix_mix (s : List Nat) : ∀ (m : List Nat), s.length = m.length →
    (∀ b ∈ s, b < 256) → unmixBytes (mixBytes s m) m = s := by
  induction s with
  | nil => intro m _ _; simp [mixBytes, unmixBytes]
  | cons a s' ih =>
    intro m hlen hlt
    cases m with
    | nil => simp at hlen
    | cons b m' =>
      simp only [mixBytes, unmixBytes, List.zip_cons_cons, List.map_cons] at *
      refine List.cons_eq_cons.mpr ⟨?_, ?_⟩
      · have ha : a < 256 := hlt a (by simp)
        omega
      · have := ih m' (by simpa using hlen) (fun x hx => hlt x (by simp [hx]))
        simpa [mixBytes, unmixBytes] using this

theorem subSecret_length (sk : SubSecKey) (a : Address) :
    (subSecret sk a).length = HASH_SIZE := modelHash_length _

theorem subSecret_lt (sk : SubSecKey) (a : Address) :
    ∀ b ∈ subSecret sk a, b < 256 := modelHash_lt _

/-- Honest extraction inverts subtree signing: extracting the signature
produced for a message, at the same address and message, recovers the
subtree root. -/
theorem subtree_extract_sign (ssk : SubSecKey) (a : Address) (m : Hash)
    (hm : m.h.length = HASH_SIZE) :
    ((ssk.sign a m).2).extract a m = (ssk.sign a m).1 := by
  simp only [SubSecKey.sign, SubSignature.extract]
  rw [unmix_mix _ _ (by rw [subSecret_length, hm]) (subSecret_lt ssk a)]

/-- The subtree domain-separation tag depends on the address only through
the layer and the instance divided by `MERKLE_HHH`. -/
theorem addrTag_congr {a b : Address} (h1 : a.layer = b.layer)
    (h2 : a.inst / MERKLE_HHH = b.inst / MERKLE_HHH) : addrTag a = addrTag b := by
  simp [addrTag, h1, h2]

theorem subRootFromSecret_congr {a b : Address} (s : List Nat)
    (h1 : a.layer = b.layer)
    (h2 : a.inst / MERKLE_HHH = b.inst / MERKLE_HHH) :
    subRootFromSecret s a = subRootFromSecret s b := by
  simp [subRootFromSecret, addrTag_congr h1 h2]

theorem subSecret_congr (sk : SubSecKey) {a b : Address}
    (h1 : a.layer = b.layer)
    (h2 : a.inst / MERKLE_HHH = b.inst / MERKLE_HHH) :
    subSecret sk a = subSecret sk b := by
  simp [subSecret, addrTag_congr h1 h2]

/-- The subtree public key depends on the address only through the
subtree coordinate (layer, instance-div-`MERKLE_HHH`). -/
theorem genpk_congr (sk : SubSecKey) {a b : Address}
    (h1 : a.layer = b.layer)
    (h2 : a.inst / MERKLE_HHH = b.inst / MERKLE_HHH) :
    sk.genpk a = sk.genpk b := by
  simp [SubSecKey.genpk, subSecret_congr sk h1 h2, subRootFromSecret_congr _ h1 h2]

/-! ## Merkle authentication-path lemmas -/

theorem levelUp_length : ∀ (l : List Hash), (levelUp l).length = l.length / 2
  | [] => by simp [levelUp]
  | [_] => by simp [levelUp]
  | _ :: _ :: rest => by
    simp only [levelUp, List.length_cons, levelUp_length rest]
    omega

theorem levelUp_getD : ∀ (l : List Hash) (j : Nat), 2 * j + 1 < l.length →
    (levelUp l).getD j default =
      hash2 (l.getD (2 * j) default) (l.getD (2 * j + 1) default)
  | [], _, h => by simp at h
  | [_], j, h => by simp only [List.length_cons, List.length_nil] at h; omega
  | a :: b :: rest, 0, _ => by simp [levelUp]
  | a :: b :: rest, j + 1, h => by
    have h' : 2 * j + 1 < rest.length := by
      simp only [List.length_cons] at h; omega
    have e1 : 2 * (j + 1) = 2 * j + 1 + 1 := by ring
    have e2 : 2 * (j + 1) + 1 = 2 * j + 1 + 1 + 1 := by ring
    simp only [levelUp, e1, e2, List.getD_cons_succ]
    exact levelUp_getD rest j h'

/-- Correctness of root reconstruction from an authentication path: for a
leaf level of size `2^n` and an in-range index, compressing the leaf up
through its generated authentication path yields the tree root. -/
theorem merkle_auth_correct : ∀ (n : Nat) (lvl : List Hash) (idx : Nat),
    lvl.length = 2 ^ n → idx < 2 ^ n →
    merkle_compress_auth (lvl.getD idx default) (genAuth n lvl idx) n idx =
      rootFromLeaves n lvl := by
  intro n
  induction n with
  | zero =>
    intro lvl idx hlen hidx
    have : idx = 0 := by omega
    subst this
    cases lvl with
    | nil => simp at hlen
    | cons a t => simp [genAuth, merkle_compress_auth, rootFromLeaves]
  | succ n ih =>
    intro lvl idx hlen hidx
    have hpow : 2 ^ (n + 1) = 2 * 2 ^ n := by ring
    have huplen : (levelUp lvl).length = 2 ^ n := by
      rw [levelUp_length, hlen, hpow]; omega
    have hupidx : idx / 2 < 2 ^ n := by omega
    simp only [genAuth, merkle_compress_auth, rootFromLeaves]
    rcases Nat.even_or_odd idx with he | ho
    · have he2 : idx % 2 = 0 := Nat.even_iff.mp he
      have hb : 2 * (idx / 2) + 1 < lvl.length := by rw [hlen, hpow]; omega
      have e0 : 2 * (idx / 2) = idx := by omega
      have e1 : 2 * (idx / 2) + 1 = idx + 1 := by omega
      have hkey := levelUp_getD lvl (idx / 2) hb
      rw [e1, e0] at hkey
      rw [if_pos he2, if_pos he2, ← hkey]
      exact ih (levelUp lvl) (idx / 2) huplen hupidx
    · have ho2 : idx % 2 = 1 := Nat.odd_iff.mp ho
      have hb : 2 * (idx / 2) + 1 < lvl.length := by rw [hlen, hpow]; omega
      have e0 : 2 * (idx / 2) = idx - 1 := by omega
      have e1 : 2 * (idx / 2) + 1 = idx := by omega
      have hkey := levelUp_getD lvl (idx / 2) hb
      rw [e1, e0] at hkey
      rw [if_neg (by omega), if_neg (by omega), ← hkey]
      exact ih (levelUp lvl) (idx / 2) huplen hupidx

/-- Writing `f i` at position `i` for every `i` below `n` turns any
sufficiently long list into `map f (range n)` followed by its untouched
tail. -/
theorem foldl_set_range (f : Nat → Hash) : ∀ (n : Nat) (l : List Hash),
    n ≤ l.length →
    (List.range n).foldl (fun t i => t.set i (f i)) l =
      (List.range n).map f ++ l.drop n := by
  intro n
  induction n with
  | zero => intro l _; simp
  | succ n ih =>
    intro l hn
    rw [List.range_succ, List.foldl_append, List.map_append, ih l (by omega)]
    have hlt : n < l.length := by omega
    have hmaplen : ((List.range n).map f).length = n := by simp
    simp only [List.foldl_cons, List.foldl_nil, List.map_cons, List.map_nil]
    rw [List.set_append, if_neg (by rw [hmaplen]; omega), hmaplen,
      Nat.sub_self, List.drop_eq_getElem_cons hlt, List.set_cons_zero,
      List.append_assoc]
    rfl

theorem getD_map_range (f : Nat → Hash) (i n : Nat) (h : i < n) :
    ((List.range n).map f).getD i default = f i := by
  simp [List.getD_eq_getElem?_getD, List.getElem?_map, List.getElem?_range h]

/-! ## Key-generation characterization -/

/-- Folding `setLeaf` over a tree only rewrites the leaf list. -/
theorem foldl_setLeaf (t : MerkleTree) (f : Nat → Hash) (n : Nat) :
    (List.range n).foldl (fun t i => t.setLeaf i (f i)) t =
      { t with leaves := (List.range n).foldl (fun l i => l.set i (f i)) t.leaves } := by
  induction n with
  | zero => simp
  | succ n ih =>
    rw [List.range_succ, List.foldl_append, List.foldl_append, ih]
    simp [MerkleTree.setLeaf]

/-- The leaf `i` written during key generation (`gravity.rs` lines 39-43):
the hash of the subtree public key at `Address(0, MERKLE_HHH * i)`. -/
def keygenLeaf (seed : Hash) (i : Nat) : Hash :=
  ((keygenSubtreeKey seed).genpk (Address.new 0 (MERKLE_HHH * i))).h

theorem secKeyNew_seed (random : List Nat) :
    (SecKey.new random).seed = ⟨random.take 32⟩ := rfl

theorem secKeyNew_salt (random : List Nat) :
    (SecKey.new random).salt = ⟨(random.drop 32).take 32⟩ := rfl

theorem secKeyNew_cache_height (random : List Nat) :
    (SecKey.new random).cache.height = GRAVITY_C := by
  simp [SecKey.new, foldl_setLeaf, MerkleTree.generate, MerkleTree.new]

/-- After key generation the cache's leaves are exactly the
`GRAVITY_CCC` subtree public-key hashes in index order. -/
theorem secKeyNew_cache_leaves (random : List Nat) :
    (SecKey.new random).cache.leaves =
      (List.range GRAVITY_CCC).map (keygenLeaf ⟨random.take 32⟩) := by
  simp only [SecKey.new, foldl_setLeaf, MerkleTree.generate]
  rw [foldl_set_range _ GRAVITY_CCC _
    (by simp [MerkleTree.new, GRAVITY_C, GRAVITY_CCC])]
  simp [MerkleTree.new, keygenLeaf, GRAVITY_C, GRAVITY_CCC]

/-- The cached root is the compression of the fully populated leaf level:
`generate` ran after every leaf was written. -/
theorem secKeyNew_cache_root (random : List Nat) :
    (SecKey.new random).cache.rootCache =
      rootFromLeaves GRAVITY_C (SecKey.new random).cache.leaves := by
  simp only [SecKey.new, foldl_setLeaf, MerkleTree.generate, MerkleTree.new]

/-! ## Honest signing and verification -/

theorem porsInstance_lt (salt msg : Hash) :
    porsInstance salt msg < GRAVITY_CCC * MERKLE_HHH ^ GRAVITY_D :=
  Nat.mod_lt _ (by norm_num [GRAVITY_CCC, MERKLE_HHH, GRAVITY_D])

/-- Closed form of `sign_hash` for the concrete parameter set: the PORS
value, the two chained subtree signatures, and the authentication path at
the shifted-down instance. -/
theorem sign_hash_closed (sk : SecKey) (msg : Hash) :
    sk.sign_hash msg =
      { pors_sign := ⟨⟨GRAVITY_D, porsInstance sk.salt msg⟩,
          modelHash (sk.seed.h ++ 2 :: sk.salt.h ++ msg.h), msg⟩,
        subtrees :=
          [((signSubtreeKey sk).sign ⟨1, porsInstance sk.salt msg⟩
              (modelHash (sk.seed.h ++ 2 :: sk.salt.h ++ msg.h))).2,
           ((signSubtreeKey sk).sign ⟨0, porsInstance sk.salt msg / 4⟩
              (((signSubtreeKey sk).sign ⟨1, porsInstance sk.salt msg⟩
                 (modelHash (sk.seed.h ++ 2 :: sk.salt.h ++ msg.h))).1)).2],
        auth_c := sk.cache.gen_auth (porsInstance sk.salt msg / 4 / 4) } := rfl

/-- Honest extraction: on the signature assembled from the PORS value and
the two chained subtree signatures, `extract_hash` rebuilds the last
subtree root and compresses it through the stored path at the same
instance. -/
theorem extract_hash_sign (ssk : SubSecKey) (ι : Nat) (h0 msg : Hash)
    (auth : List Hash) (hh0 : h0.h.length = HASH_SIZE) :
    Signature.extract_hash
      { pors_sign := ⟨⟨GRAVITY_D, ι⟩, h0, msg⟩,
        subtrees := [(ssk.sign ⟨1, ι⟩ h0).2,
                     (ssk.sign ⟨0, ι / 4⟩ ((ssk.sign ⟨1, ι⟩ h0).1)).2],
        auth_c := auth } msg =
      some (merkle_compress_auth
        ((ssk.sign ⟨0, ι / 4⟩ ((ssk.sign ⟨1, ι⟩ h0).1)).1)
        auth GRAVITY_C (ι / 4 / 4)) := by
  have hstep0 :
      extractStep [(ssk.sign ⟨1, ι⟩ h0).2,
                   (ssk.sign ⟨0, ι / 4⟩ ((ssk.sign ⟨1, ι⟩ h0).1)).2]
        (⟨GRAVITY_D, ι⟩, h0) 0 = (⟨1, ι / 4⟩, (ssk.sign ⟨1, ι⟩ h0).1) := by
    simp only [extractStep, Address.next_layer, Address.shift, List.getD_cons_zero,
      GRAVITY_D, MERKLE_H]
    rw [subtree_extract_sign ssk _ h0 hh0]
    norm_num
  have hh1 : ((ssk.sign ⟨1, ι⟩ h0).1).h.length = HASH_SIZE := by
    simp only [SubSecKey.sign, subRootFromSecret]
    exact modelHash_length _
  have hstep1 :
      extractStep [(ssk.sign ⟨1, ι⟩ h0).2,
                   (ssk.sign ⟨0, ι / 4⟩ ((ssk.sign ⟨1, ι⟩ h0).1)).2]
        (⟨1, ι / 4⟩, (ssk.sign ⟨1, ι⟩ h0).1) 1 =
        (⟨0, ι / 4 / 4⟩, (ssk.sign ⟨0, ι / 4⟩ ((ssk.sign ⟨1, ι⟩ h0).1)).1) := by
    simp only [extractStep, Address.next_layer, Address.shift, List.getD_cons_succ,
      List.getD_cons_zero, MERKLE_H]
    rw [subtree_extract_sign ssk _ _ hh1]
    norm_num
  have hfold :
      (List.range GRAVITY_D).foldl
        (extractStep [(ssk.sign ⟨1, ι⟩ h0).2,
                      (ssk.sign ⟨0, ι / 4⟩ ((ssk.sign ⟨1, ι⟩ h0).1)).2])
        (⟨GRAVITY_D, ι⟩, h0) =
        (⟨0, ι / 4 / 4⟩, (ssk.sign ⟨0, ι / 4⟩ ((ssk.sign ⟨1, ι⟩ h0).1)).1) := by
    show extractStep _ (extractStep _ (⟨GRAVITY_D, ι⟩, h0) 0) 1 = _
    rw [hstep0, hstep1]
  have hpors : PorsSignature.extract ⟨⟨GRAVITY_D, ι⟩, h0, msg⟩ msg =
      some (⟨GRAVITY_D, ι⟩, h0) := by
    simp [PorsSignature.extract]
  simp only [Signature.extract_hash, hpors, hfold, Address.get_instance]

/-- Round-trip correctness on a message digest: an honestly produced
signature verifies against the honestly derived public key. -/
theorem verify_sign_hash (random : List Nat) (msg : Hash) :
    ((SecKey.new random).genpk).verify_hash
      ((SecKey.new random).sign_hash msg) msg = true := by
  rw [sign_hash_closed, PubKey.verify_hash,
    extract_hash_sign _ _ _ _ _ (modelHash_length _)]
  rw [decide_eq_true_iff]
  -- notation
  have hgenpk : ((SecKey.new random).genpk).h = (SecKey.new random).cache.rootCache := rfl
  have hauth : (SecKey.new random).cache.gen_auth
        (porsInstance (SecKey.new random).salt msg / 4 / 4) =
      genAuth GRAVITY_C (SecKey.new random).cache.leaves
        (porsInstance (SecKey.new random).salt msg / 4 / 4) := by
    rw [MerkleTree.gen_auth, secKeyNew_cache_height]
  have hidx : porsInstance (SecKey.new random).salt msg / 4 / 4 < 2 ^ GRAVITY_C := by
    have := porsInstance_lt (SecKey.new random).salt msg
    simp only [GRAVITY_CCC, MERKLE_HHH, GRAVITY_D, GRAVITY_C] at *
    omega
  have hlen : ((SecKey.new random).cache.leaves).length = 2 ^ GRAVITY_C := by
    rw [secKeyNew_cache_leaves]
    simp [GRAVITY_CCC, GRAVITY_C]
  have hmac := merkle_auth_correct GRAVITY_C (SecKey.new random).cache.leaves
    (porsInstance (SecKey.new random).salt msg / 4 / 4) hlen hidx
  -- the leaf at the final index is the last chained subtree root
  have hleaf : ((SecKey.new random).cache.leaves).getD
        (porsInstance (SecKey.new random).salt msg / 4 / 4) default =
      ((signSubtreeKey (SecKey.new random)).sign
        ⟨0, porsInstance (SecKey.new random).salt msg / 4⟩
        (((signSubtreeKey (SecKey.new random)).sign
            ⟨1, porsInstance (SecKey.new random).salt msg⟩
            (modelHash ((SecKey.new random).seed.h ++
              2 :: (SecKey.new random).salt.h ++ msg.h))).1)).1 := by
    rw [secKeyNew_cache_leaves, getD_map_range _ _ _ (by
      simpa [GRAVITY_CCC, GRAVITY_C] using hidx)]
    show ((keygenSubtreeKey ⟨random.take 32⟩).genpk _).h = _
    simp only [SubSecKey.genpk, SubSecKey.sign]
    have hsskeq : keygenSubtreeKey (⟨random.take 32⟩ : Hash) =
        signSubtreeKey (SecKey.new random) := rfl
    rw [hsskeq]
    have h1 : (Address.new 0
        (MERKLE_HHH * (porsInstance (SecKey.new random).salt msg / 4 / 4))).layer =
        (Address.mk 0 (porsInstance (SecKey.new random).salt msg / 4)).layer := rfl
    have h2 : (Address.new 0
          (MERKLE_HHH * (porsInstance (SecKey.new random).salt msg / 4 / 4))).inst /
          MERKLE_HHH =
        (Address.mk 0 (porsInstance (SecKey.new random).salt msg / 4)).inst /
          MERKLE_HHH := by
      simp only [Address.new, MERKLE_HHH]
      omega
    rw [subSecret_congr _ h1 h2, subRootFromSecret_congr _ h1 h2]
  rw [hgenpk, secKeyNew_cache_root, hauth, ← hmac, hleaf]

/-- Round-trip correctness on raw bytes follows by digesting first. -/
theorem verify_sign_bytes (random : List Nat) (msg : List Nat) :
    ((SecKey.new random).genpk).verify_bytes
      ((SecKey.new random).sign_bytes msg) msg = true :=
  verify_sign_hash random (long_hash msg)

/-! ## Loop recurrences: the address/hash chains walked by the signing
and verification loops -/

/-- The address transformation of one whole loop iteration, shared by
signing and verification: advance a layer, then shift the instance by the
`MERKLE_H` stride. -/
def stepA (a : Address) : Address := (a.next_layer).shift MERKLE_H

/-- The address state before iteration `n` of the loop. -/
def chainAddr (a0 : Address) : Nat → Address
  | 0 => a0
  | n + 1 => stepA (chainAddr a0 n)

/-- The address under which iteration `n` signs/extracts (state advanced
to the next layer, instance not yet shifted). -/
def usedAddr (a0 : Address) (n : Nat) : Address := (chainAddr a0 n).next_layer

/-- The running hash before iteration `n` of the signing loop. -/
def chainHash (ssk : SubSecKey) (a0 : Address) (h0 : Hash) : Nat → Hash
  | 0 => h0
  | n + 1 => (ssk.sign (usedAddr a0 n) (chainHash ssk a0 h0 n)).1

theorem genAuth_length : ∀ (n : Nat) (lvl : List Hash) (idx : Nat),
    (genAuth n lvl idx).length = n
  | 0, _, _ => rfl
  | n + 1, lvl, idx => by
    simp only [genAuth, List.length_cons, genAuth_length n (levelUp lvl) (idx / 2)]

/-- The address component of the verification fold depends only on the
starting address, never on the hashes or the signature data. -/
theorem foldl_extract_addr (subs : List SubSignature) : ∀ (l : List Nat)
    (st : Address × Hash),
    (l.foldl (extractStep subs) st).1 = l.foldl (fun a _ => stepA a) st.1 := by
  intro l
  induction l with
  | nil => intro st; rfl
  | cons i l ih => intro st; rw [List.foldl_cons, List.foldl_cons, ih]; rfl

/-- The address component of the signing fold depends only on the starting
address, never on the hashes or accumulated signatures. -/
theorem foldl_sign_addr (ssk : SubSecKey) : ∀ (l : List Nat)
    (st : Address × Hash × List SubSignature),
    (l.foldl (signStep ssk) st).1 = l.foldl (fun a _ => stepA a) st.1 := by
  intro l
  induction l with
  | nil => intro st; rfl
  | cons i l ih => intro st; rw [List.foldl_cons, List.foldl_cons, ih]; rfl

/-! ## Claim theorems -/

/-- C1: For every 64-byte input `random` and every message digest `msg`,
verification succeeds on an honestly produced signature: with
`sk = SecKey::new(random)` and `pk = sk.genpk()`,
`pk.verify_hash(&sk.sign_hash(&msg), &msg) == true`, and likewise
`verify_bytes` on `sign_bytes` for every byte string. -/
theorem honest_roundtrip_verifies (random : List Nat) (msg : Hash)
    (bmsg : List Nat) (hr : random.length = 64) :
    ((SecKey.new random).genpk).verify_hash
      ((SecKey.new random).sign_hash msg) msg = true ∧
    ((SecKey.new random).genpk).verify_bytes
      ((SecKey.new random).sign_bytes bmsg) bmsg = true :=
  ⟨verify_sign_hash random msg, verify_sign_bytes random bmsg⟩

/-- Witness for C1 at a concrete seed, digest and byte message. -/
theorem honest_roundtrip_verifies_witness :
    (List.range 64).length = 64 ∧
    (((SecKey.new (List.range 64)).genpk).verify_hash
        ((SecKey.new (List.range 64)).sign_hash ⟨List.range 32⟩)
        ⟨List.range 32⟩ = true ∧
      ((SecKey.new (List.range 64)).genpk).verify_bytes
        ((SecKey.new (List.range 64)).sign_bytes [0, 1, 2]) [0, 1, 2] = true) :=
  ⟨by simp,
   honest_roundtrip_verifies (List.range 64) ⟨List.range 32⟩ [0, 1, 2] (by simp)⟩

/-- C2: The subtree secret-key generator derived inside `sign_hash` is
identical to the one derived inside `SecKey::new`, so for every seed and
every index `i < GRAVITY_CCC`, the layer-0 subtree public key re-derived
at signing time under `Address(0, MERKLE_HHH * i)` equals the hash cached
as leaf `i` during key generation. -/
theorem sign_keygen_subtree_consistent (random : List Nat) (i : Nat)
    (hi : i < GRAVITY_CCC) :
    signSubtreeKey (SecKey.new random) =
      keygenSubtreeKey (SecKey.new random).seed ∧
    ((signSubtreeKey (SecKey.new random)).genpk
        (Address.new 0 (MERKLE_HHH * i))).h =
      ((SecKey.new random).cache.leaves).getD i default := by
  refine ⟨rfl, ?_⟩
  rw [secKeyNew_cache_leaves, getD_map_range _ _ _ hi]
  rfl

/-- Witness for C2 at a concrete seed and leaf index. -/
theorem sign_keygen_subtree_consistent_witness :
    3 < GRAVITY_CCC ∧
    (signSubtreeKey (SecKey.new (List.range 64)) =
        keygenSubtreeKey (SecKey.new (List.range 64)).seed ∧
      ((signSubtreeKey (SecKey.new (List.range 64))).genpk
          (Address.new 0 (MERKLE_HHH * 3))).h =
        ((SecKey.new (List.range 64)).cache.leaves).getD 3 default) :=
  ⟨by decide, sign_keygen_subtree_consistent (List.range 64) 3 (by decide)⟩

/-- C3: `sign_hash` performs exactly `GRAVITY_D` layer iterations: the
signature stored at position `i` is the subtree signature of the running
hash `chainHash i` under the layer-advanced address `usedAddr i`, the
running hash and address follow the `chainHash`/`chainAddr` recurrences
(sign, adopt the root, shift the instance by the `MERKLE_H` stride), and
after the loop the authentication path is generated for the final
address's instance. -/
theorem sign_hash_loop_structure (sk : SecKey) (msg : Hash) :
    (sk.sign_hash msg).subtrees.length = GRAVITY_D ∧
    (∀ i, i < GRAVITY_D →
      (sk.sign_hash msg).subtrees.getD i default =
        ((signSubtreeKey sk).sign
          (usedAddr (porsSign (Prng.new sk.seed) sk.salt msg).1 i)
          (chainHash (signSubtreeKey sk)
            (porsSign (Prng.new sk.seed) sk.salt msg).1
            (porsSign (Prng.new sk.seed) sk.salt msg).2.1 i)).2) ∧
    (signLayers (signSubtreeKey sk) (porsSign (Prng.new sk.seed) sk.salt msg).1
        (porsSign (Prng.new sk.seed) sk.salt msg).2.1).2.1 =
      chainHash (signSubtreeKey sk) (porsSign (Prng.new sk.seed) sk.salt msg).1
        (porsSign (Prng.new sk.seed) sk.salt msg).2.1 GRAVITY_D ∧
    (signLayers (signSubtreeKey sk) (porsSign (Prng.new sk.seed) sk.salt msg).1
        (porsSign (Prng.new sk.seed) sk.salt msg).2.1).1 =
      chainAddr (porsSign (Prng.new sk.seed) sk.salt msg).1 GRAVITY_D ∧
    (sk.sign_hash msg).auth_c =
      sk.cache.gen_auth
        ((chainAddr (porsSign (Prng.new sk.seed) sk.salt msg).1
          GRAVITY_D).get_instance) := by
  refine ⟨rfl, ?_, rfl, rfl, rfl⟩
  intro i hi
  have hi2 : i < 2 := hi
  match i, hi2 with
  | 0, _ => rfl
  | 1, _ => rfl

/-- Witness for C3 at a concrete key, message and layer index. -/
theorem sign_hash_loop_structure_witness :
    ((SecKey.new (List.range 64)).sign_hash ⟨List.range 32⟩).subtrees.getD
        1 default =
      ((signSubtreeKey (SecKey.new (List.range 64))).sign
        (usedAddr (porsSign (Prng.new (SecKey.new (List.range 64)).seed)
          (SecKey.new (List.range 64)).salt ⟨List.range 32⟩).1 1)
        (chainHash (signSubtreeKey (SecKey.new (List.range 64)))
          (porsSign (Prng.new (SecKey.new (List.range 64)).seed)
            (SecKey.new (List.range 64)).salt ⟨List.range 32⟩).1
          (porsSign (Prng.new (SecKey.new (List.range 64)).seed)
            (SecKey.new (List.range 64)).salt ⟨List.range 32⟩).2.1 1)).2 :=
  (sign_hash_loop_structure (SecKey.new (List.range 64))
    ⟨List.range 32⟩).2.1 1 (by decide)

/-- C4: `SecKey::new(random)` takes the first 32 bytes as seed and the
last 32 as salt, fills leaf `i` of the `GRAVITY_CCC`-leaf cache with the
subtree public-key hash derived under `Address(0, MERKLE_HHH * i)` for
every `i`, compresses the tree only after all leaves are set (the cached
root is the compression of the final leaf level), and `genpk` returns the
cached root by a pure read. -/
theorem seckey_new_structure (random : List Nat) (hr : random.length = 64) :
    (SecKey.new random).seed.h = random.take 32 ∧
    (SecKey.new random).salt.h = random.drop 32 ∧
    (∀ i, i < GRAVITY_CCC →
      ((SecKey.new random).cache.leaves).getD i default =
        ((keygenSubtreeKey (SecKey.new random).seed).genpk
          (Address.new 0 (MERKLE_HHH * i))).h) ∧
    (SecKey.new random).cache.rootCache =
      rootFromLeaves GRAVITY_C (SecKey.new random).cache.leaves ∧
    (SecKey.new random).genpk = ⟨(SecKey.new random).cache.rootCache⟩ := by
  refine ⟨rfl, ?_, ?_, secKeyNew_cache_root random, rfl⟩
  · show (random.drop 32).take 32 = random.drop 32
    apply List.take_of_length_le
    simp [hr]
  · intro i hi
    rw [secKeyNew_cache_leaves, getD_map_range _ _ _ hi]
    rfl

/-- Witness for C4 at a concrete 64-byte input. -/
theorem seckey_new_structure_witness :
    (List.range 64).length = 64 ∧
    ((SecKey.new (List.range 64)).seed.h = (List.range 64).take 32 ∧
      (SecKey.new (List.range 64)).salt.h = (List.range 64).drop 32 ∧
      (∀ i, i < GRAVITY_CCC →
        ((SecKey.new (List.range 64)).cache.leaves).getD i default =
          ((keygenSubtreeKey (SecKey.new (List.range 64)).seed).genpk
            (Address.new 0 (MERKLE_HHH * i))).h) ∧
      (SecKey.new (List.range 64)).cache.rootCache =
        rootFromLeaves GRAVITY_C (SecKey.new (List.range 64)).cache.leaves ∧
      (SecKey.new (List.range 64)).genpk =
        ⟨(SecKey.new (List.range 64)).cache.rootCache⟩) :=
  ⟨by simp, seckey_new_structure (List.range 64) (by simp)⟩

/-- C5: verification is total and definitive: a failed few-time
extraction makes `extract_hash` return `None`, an absent candidate makes
`verify_hash` return `false` immediately, and on a present candidate
`verify_hash` returns `true` exactly when the reconstructed root equals
the stored public-key hash. -/
theorem verify_hash_definitive (pk : PubKey) (s : Signature) (msg : Hash) :
    (s.pors_sign.extract msg = none → s.extract_hash msg = none) ∧
    (s.extract_hash msg = none → pk.verify_hash s msg = false) ∧
    (∀ h, s.extract_hash msg = some h →
      (pk.verify_hash s msg = true ↔ pk.h = h)) := by
  refine ⟨?_, ?_, ?_⟩
  · intro hp
    simp [Signature.extract_hash, hp]
  · intro he
    simp [PubKey.verify_hash, he]
  · intro h he
    simp [PubKey.verify_hash, he]

/-- Witness for C5: a signature whose few-time extraction fails is
rejected outright. -/
theorem verify_hash_definitive_witness :
    Signature.extract_hash default ⟨[1]⟩ = none ∧
    PubKey.verify_hash ⟨default⟩ default ⟨[1]⟩ = false := by
  have h := verify_hash_definitive ⟨default⟩ default ⟨[1]⟩
  have h1 : (default : Signature).pors_sign.extract ⟨[1]⟩ = none := by decide
  exact ⟨h.1 h1, h.2.1 (h.1 h1)⟩

/-- C7: two secret keys constructed from the same bytes have equal public
keys and, for every fixed message digest, produce identical signatures in
every component (few-time value, subtree signatures, path hashes). -/
theorem seckey_deterministic (random : List Nat) (msg : Hash)
    (sk1 sk2 : SecKey) (h1 : sk1 = SecKey.new random)
    (h2 : sk2 = SecKey.new random) :
    sk1.genpk = sk2.genpk ∧
    (sk1.sign_hash msg).pors_sign = (sk2.sign_hash msg).pors_sign ∧
    (sk1.sign_hash msg).subtrees = (sk2.sign_hash msg).subtrees ∧
    (sk1.sign_hash msg).auth_c = (sk2.sign_hash msg).auth_c := by
  subst h1; subst h2
  exact ⟨rfl, rfl, rfl, rfl⟩

/-- Witness for C7 at a concrete seed and message. -/
theorem seckey_deterministic_witness :
    (SecKey.new (List.range 64)).genpk = (SecKey.new (List.range 64)).genpk ∧
    ((SecKey.new (List.range 64)).sign_hash ⟨[5]⟩).pors_sign =
      ((SecKey.new (List.range 64)).sign_hash ⟨[5]⟩).pors_sign ∧
    ((SecKey.new (List.range 64)).sign_hash ⟨[5]⟩).subtrees =
      ((SecKey.new (List.range 64)).sign_hash ⟨[5]⟩).subtrees ∧
    ((SecKey.new (List.range 64)).sign_hash ⟨[5]⟩).auth_c =
      ((SecKey.new (List.range 64)).sign_hash ⟨[5]⟩).auth_c :=
  seckey_deterministic (List.range 64) ⟨[5]⟩ _ _ rfl rfl

/-- C8: key generation and signing are total with every index in bounds:
the cache keeps exactly `GRAVITY_CCC` leaves (so each keygen write at
`i < GRAVITY_CCC` is in bounds), signatures carry exactly `GRAVITY_D`
subtree signatures and `GRAVITY_C` path hashes, the final
authentication-path index is below `GRAVITY_CCC`, and `sign_bytes` is
the total composition of the long hash with `sign_hash`. -/
theorem keygen_sign_total_in_bounds (random : List Nat) (msg : Hash)
    (bmsg : List Nat) :
    (SecKey.new random).cache.leaves.length = GRAVITY_CCC ∧
    ((SecKey.new random).sign_hash msg).subtrees.length = GRAVITY_D ∧
    ((SecKey.new random).sign_hash msg).auth_c.length = GRAVITY_C ∧
    (signLayers (signSubtreeKey (SecKey.new random))
        (porsSign (Prng.new (SecKey.new random).seed)
          (SecKey.new random).salt msg).1
        (porsSign (Prng.new (SecKey.new random).seed)
          (SecKey.new random).salt msg).2.1).1.get_instance < GRAVITY_CCC ∧
    (SecKey.new random).sign_bytes bmsg =
      (SecKey.new random).sign_hash (long_hash bmsg) := by
  refine ⟨?_, rfl, ?_, ?_, rfl⟩
  · rw [secKeyNew_cache_leaves]; simp
  · show (genAuth (SecKey.new random).cache.height _ _).length = GRAVITY_C
    rw [genAuth_length, secKeyNew_cache_height]
  · show porsInstance (SecKey.new random).salt msg / 4 / 4 < GRAVITY_CCC
    have := porsInstance_lt (SecKey.new random).salt msg
    simp only [GRAVITY_CCC, MERKLE_HHH, GRAVITY_D] at *
    omega

/-- C9: the address transformation sequence of `extract_hash` is
step-for-step the one of `sign_hash`: over any iteration list the two
folds move the address identically (independently of hashes and
signature data), and over the `GRAVITY_D` iterations the final instance
read by verification equals the one signing used for its authentication
path. -/
theorem extract_sign_address_agreement :
    (∀ (subs : List SubSignature) (ssk : SubSecKey) (l : List Nat)
      (a0 : Address) (h0 hv : Hash),
      (l.foldl (extractStep subs) (a0, hv)).1 =
        (l.foldl (signStep ssk) (a0, h0, [])).1) ∧
    (∀ (subs : List SubSignature) (ssk : SubSecKey) (a0 : Address)
      (h0 hv : Hash),
      ((List.range GRAVITY_D).foldl (extractStep subs) (a0, hv)).1.get_instance =
        (signLayers ssk a0 h0).1.get_instance) := by
  constructor
  · intro subs ssk l a0 h0 hv
    rw [foldl_extract_addr, foldl_sign_addr]
  · intro subs ssk a0 h0 hv
    rw [signLayers, foldl_extract_addr, foldl_sign_addr]

/-! ## Serialization round-trip -/

theorem toLE_length : ∀ (k n : Nat), (toLE k n).length = k
  | 0, _ => rfl
  | k + 1, n => by simp [toLE, toLE_length k]

theorem fromLE_toLE : ∀ (k n : Nat), fromLE (toLE k n) = n % 2 ^ (8 * k)
  | 0, n => by simp [toLE, fromLE, Nat.mod_one]
  | k + 1, n => by
    rw [toLE, fromLE, fromLE_toLE k (n / 256)]
    have : 2 ^ (8 * (k + 1)) = 256 * 2 ^ (8 * k) := by ring
    rw [this, Nat.mod_mul]

theorem take_append_length (l r : List Nat) (k : Nat) (h : l.length = k) :
    (l ++ r).take k = l := by
  subst h; exact List.take_left l r

theorem drop_append_length (l r : List Nat) (k : Nat) (h : l.length = k) :
    (l ++ r).drop k = r := by
  subst h; exact List.drop_left l r

theorem readLE_toLE (k n : Nat) (rest : List Nat) (h : n < 2 ^ (8 * k)) :
    readLE k (toLE k n ++ rest) = (some n, rest) := by
  have hl : (toLE k n).length = k := toLE_length k n
  rw [readLE, if_pos (by simp [hl]),
    take_append_length _ _ _ hl, drop_append_length _ _ _ hl,
    fromLE_toLE, Nat.mod_eq_of_lt h]

theorem hash_deserialize_append (x : Hash) (hx : x.wf) (rest : List Nat) :
    Hash.deserialize (x.h ++ rest) = (some x, rest) := by
  rw [Hash.wf] at hx
  rw [Hash.deserialize, if_pos (by simp [hx]),
    take_append_length _ _ _ hx, drop_append_length _ _ _ hx]

theorem sub_deserialize_append (t : SubSignature) (ht : t.wf) (rest : List Nat) :
    SubSignature.deserialize (t.s ++ rest) = (some t, rest) := by
  rw [SubSignature.wf] at ht
  rw [SubSignature.deserialize, if_pos (by simp [ht]),
    take_append_length _ _ _ ht, drop_append_length _ _ _ ht]

theorem pors_serialize_eq (p : PorsSignature) (out : List Nat) :
    p.serialize out =
      out ++ (toLE 4 p.addr.layer ++ (toLE 8 p.addr.inst ++
        (p.h.h ++ p.msgTag.h))) := by
  simp [PorsSignature.serialize, Hash.serialize, List.append_assoc]

theorem pors_deserialize_append (p : PorsSignature) (hp : p.wf)
    (rest : List Nat) :
    PorsSignature.deserialize (p.serialize [] ++ rest) = (some p, rest) := by
  obtain ⟨h1, h2, h3, h4⟩ := hp
  rw [pors_serialize_eq]
  simp only [List.nil_append, List.append_assoc, PorsSignature.deserialize,
    readLE_toLE 4 p.addr.layer _ (by simpa using h1),
    readLE_toLE 8 p.addr.inst _ (by simpa using h2),
    hash_deserialize_append p.h h3, hash_deserialize_append p.msgTag h4]

/-- The concatenation of the subtree signatures' fixed-width encodings,
in order. -/
def subListBytes (l : List SubSignature) : List Nat :=
  l.foldr (fun t acc => t.s ++ acc) []

/-- The concatenation of the authentication-path hashes' raw bytes, in
order. -/
def hashListBytes (l : List Hash) : List Nat :=
  l.foldr (fun x acc => x.h ++ acc) []

theorem foldl_sub_serialize : ∀ (l : List SubSignature) (o : List Nat),
    l.foldl (fun o t => SubSignature.serialize t o) o = o ++ subListBytes l
  | [], o => by simp [subListBytes]
  | t :: l, o => by
    rw [List.foldl_cons, foldl_sub_serialize l]
    simp [subListBytes, SubSignature.serialize, List.append_assoc]

theorem foldl_hash_serialize : ∀ (l : List Hash) (o : List Nat),
    l.foldl (fun o x => Hash.serialize x o) o = o ++ hashListBytes l
  | [], o => by simp [hashListBytes]
  | x :: l, o => by
    rw [List.foldl_cons, foldl_hash_serialize l]
    simp [hashListBytes, Hash.serialize, List.append_assoc]

theorem readN_sub : ∀ (l : List SubSignature), (∀ t ∈ l, t.wf) →
    ∀ (rest : List Nat),
    readN SubSignature.deserialize l.length (subListBytes l ++ rest) =
      (some l, rest)
  | [], _, rest => rfl
  | t :: l, hwf, rest => by
    have ht : t.wf := hwf t (by simp)
    have hl : ∀ u ∈ l, u.wf := fun u hu => hwf u (by simp [hu])
    show readN SubSignature.deserialize (l.length + 1)
      ((t.s ++ subListBytes l) ++ rest) = (some (t :: l), rest)
    rw [List.append_assoc]
    simp only [readN, sub_deserialize_append t ht (subListBytes l ++ rest),
      readN_sub l hl rest]

theorem readN_hash : ∀ (l : List Hash), (∀ x ∈ l, x.wf) →
    ∀ (rest : List Nat),
    readN Hash.deserialize l.length (hashListBytes l ++ rest) =
      (some l, rest)
  | [], _, rest => rfl
  | x :: l, hwf, rest => by
    have hx : x.wf := hwf x (by simp)
    have hl : ∀ u ∈ l, u.wf := fun u hu => hwf u (by simp [hu])
    show readN Hash.deserialize (l.length + 1)
      ((x.h ++ hashListBytes l) ++ rest) = (some (x :: l), rest)
    rw [List.append_assoc]
    simp only [readN, hash_deserialize_append x hx (hashListBytes l ++ rest),
      readN_hash l hl rest]

/-- `Signature::serialize` writes, after the given buffer, exactly the
PORS encoding, the subtree encodings in order, and the path hashes in
order. -/
theorem signature_serialize_closed (s : Signature) (out : List Nat) :
    s.serialize out =
      out ++ (s.pors_sign.serialize [] ++
        (subListBytes s.subtrees ++ hashListBytes s.auth_c)) := by
  rw [Signature.serialize, foldl_sub_serialize, foldl_hash_serialize,
    pors_serialize_eq, pors_serialize_eq]
  simp [List.append_assoc]

/-- Deserializing a serialized well-formed signature, with any trailing
bytes, returns the signature and leaves exactly the trailing bytes. -/
theorem sig_deserialize_serialize (s : Signature) (hwf : s.wf)
    (extra : List Nat) :
    Signature.deserialize (s.serialize [] ++ extra) = (some s, extra) := by
  obtain ⟨hp, hd, hdw, hc, hcw⟩ := hwf
  rw [signature_serialize_closed]
  simp only [List.nil_append, List.append_assoc]
  rw [Signature.deserialize, ← hd, ← hc]
  simp only [pors_deserialize_append s.pors_sign hp
      (subListBytes s.subtrees ++ (hashListBytes s.auth_c ++ extra)),
    readN_sub s.subtrees hdw (hashListBytes s.auth_c ++ extra),
    readN_hash s.auth_c hcw extra]

/-- C6: `serialize` appends, to any output buffer, the few-time-signature
bytes, then the `GRAVITY_D` subtree-signature encodings in layer order,
then the `GRAVITY_C` authentication-path hashes in order; `deserialize`
reads the same fields in the same order, and deserializing the bytes
produced by serializing `s` yields `some s` (field-wise equal) with
nothing left over. -/
theorem signature_serialization_roundtrip (s : Signature) (hwf : s.wf) :
    (∀ out, s.serialize out =
      out ++ (s.pors_sign.serialize [] ++
        (subListBytes s.subtrees ++ hashListBytes s.auth_c))) ∧
    Signature.deserialize (s.serialize []) = (some s, []) := by
  refine ⟨signature_serialize_closed s, ?_⟩
  have := sig_deserialize_serialize s hwf []
  simpa using this

/-- Witness for C6 at the default (well-formed) signature. -/
theorem signature_serialization_roundtrip_witness :
    Signature.wf default ∧
    Signature.deserialize
      (Signature.serialize default []) = (some default, []) :=
  ⟨by decide, (signature_serialization_roundtrip default (by decide)).2⟩

/-- C10: no exhaustion check after the last field: a serialized signature
followed by arbitrary extra bytes deserializes to `some`, consuming only
the signature's fixed-length prefix; and a failing deserialization has
already consumed bytes — the stream is not rolled back (on this 76-byte
PORS-only prefix the result is `none` with the whole stream drained). -/
theorem deserialize_prefix_no_rollback :
    (∀ (s : Signature) (extra : List Nat), s.wf →
      Signature.deserialize (s.serialize [] ++ extra) = (some s, extra)) ∧
    Signature.deserialize (PorsSignature.serialize default []) = (none, []) ∧
    (PorsSignature.serialize default []).length = 76 := by
  refine ⟨fun s extra hwf => sig_deserialize_serialize s hwf extra, ?_, ?_⟩
  · decide
  · decide

/-- Witness for C10: the default signature with two trailing bytes. -/
theorem deserialize_prefix_no_rollback_witness :
    Signature.wf default ∧
    Signature.deserialize (Signature.serialize default [] ++ [7, 9]) =
      (some default, [7, 9]) :=
  ⟨by decide, deserialize_prefix_no_rollback.1 default [7, 9] (by decide)⟩

end Gravity
